import Mathlib

/- Shallow embedding of the wishlist cache scripts of this repository
   (generate-cache.mjs, manage-cache.mjs and the two unnamed sibling
   scripts).  JavaScript strings are modelled as lists of characters;
   each definition below mirrors one JavaScript function or expression
   of the source, with the regular expressions of the source unfolded
   into explicit scanning functions over the character list.  The
   sources interpolate section titles into regex patterns; the titles
   used by the scripts contain no regex metacharacters, so titles are
   treated as literal patterns here.  Character case folding models the
   ASCII behaviour of the i flag and of toLowerCase, which is all the
   scripts exercise. -/

/-- Character class of JavaScript whitespace (the set recognised by
String.prototype.trim and by the regex class for whitespace). -/
def isJSWhitespace (c : Char) : Bool :=
  c == ' ' || c == '\t' || c == '\n' || c == '\r' || c == '\x0b' || c == '\x0c' ||
  c == '\u00a0' || c == '\u1680' || (decide (0x2000 ≤ c.toNat) && decide (c.toNat ≤ 0x200a)) ||
  c == '\u2028' || c == '\u2029' || c == '\u202f' || c == '\u205f' ||
  c == '\u3000' || c == '\ufeff'

/-- JavaScript String.prototype.trim on a character list. -/
def trimJS (l : List Char) : List Char :=
  ((l.dropWhile isJSWhitespace).reverse.dropWhile isJSWhitespace).reverse

/-- JavaScript String.prototype.split with a one-character separator. -/
def splitOnChar (sep : Char) : List Char → List (List Char)
  | [] => [[]]
  | c :: cs =>
    match splitOnChar sep cs with
    | [] => [[]]
    | h :: t => if c == sep then [] :: h :: t else (c :: h) :: t

/-- Does the second list start with the first (character-exact)? -/
def startsList : List Char → List Char → Bool
  | [], _ => true
  | _ :: _, [] => false
  | p :: ps, c :: cs => p == c && startsList ps cs

/-- JavaScript String.prototype.includes for a pattern list. -/
def containsSub (pat : List Char) : List Char → Bool
  | [] => pat.isEmpty
  | c :: cs => startsList pat (c :: cs) || containsSub pat cs

/-- Index of the leftmost exact occurrence of a pattern. -/
def findSub (pat : List Char) : List Char → Option Nat
  | [] => if startsList pat [] then some 0 else none
  | c :: cs =>
    if startsList pat (c :: cs) then some 0
    else (findSub pat cs).map (fun i => i + 1)

/-- Case folding used for the regex flag i (ASCII case-insensitive match). -/
def lowerEq (a b : Char) : Bool := a.toLower == b.toLower

/-- Case-insensitive prefix test. -/
def startsWithCI : List Char → List Char → Bool
  | [], _ => true
  | _ :: _, [] => false
  | p :: ps, c :: cs => lowerEq p c && startsWithCI ps cs

/-- Index of the leftmost case-insensitive occurrence of a pattern. -/
def findCI (pat : List Char) : List Char → Option Nat
  | [] => if startsWithCI pat [] then some 0 else none
  | c :: cs =>
    if startsWithCI pat (c :: cs) then some 0
    else (findCI pat cs).map (fun i => i + 1)

/-- All case-insensitive occurrence positions of a pattern. -/
def occurrencesCI (pat : List Char) : List Char → List Nat
  | [] => if startsWithCI pat [] then [0] else []
  | c :: cs =>
    (if startsWithCI pat (c :: cs) then [0] else []) ++
      (occurrencesCI pat cs).map (fun i => i + 1)

/-- The heading pattern searched for by the extractSection regex:
three hashes, a space, the title, then a mandatory newline. -/
def headingPattern (title : List Char) : List Char :=
  ("### ".data ++ title) ++ ['\n']

/-- extractSection of generate-cache.mjs (identical in both unnamed
scripts): locate the heading case-insensitively, capture lazily up to
the next occurrence of three hashes or to the end of text, then trim. -/
def extractSection (body title : List Char) : List Char :=
  match findCI (headingPattern title) body with
  | none => []
  | some i =>
    let rest := body.drop (i + (headingPattern title).length)
    match findCI ("###".data) rest with
    | none => trimJS rest
    | some j => trimJS (rest.take j)

/-- Does the text contain a heading marker (three hashes) at all? -/
def hasHeadingMarker (body : List Char) : Bool :=
  (findCI ("###".data) body).isSome

/-- Does the remaining text begin with optional whitespace followed by a
hyphen?  This is the separator alternative of the checkbox and urgency
regexes. -/
def hyphenSep (l : List Char) : Bool :=
  match l.dropWhile isJSWhitespace with
  | '-' :: _ => true
  | _ => false

/-- Cut the text at the first position where the whitespace-hyphen
separator begins; the lazy capture of the regexes stops there. -/
def cutTail : List Char → List Char
  | [] => []
  | c :: rest => if hyphenSep (c :: rest) then [] else c :: cutTail rest

/-- The capture of the checkbox item regex applied to the text following
the checked-box token: skip whitespace, take at least one character,
stop before a whitespace-hyphen separator, then trim. -/
def checkboxContent (rest : List Char) : List Char :=
  match rest.dropWhile isJSWhitespace with
  | [] => []
  | c :: cs => trimJS (c :: cutTail cs)

/-- One step of the map inside parseCheckboxes: extract the item text of
a line, or the empty list when the regex does not match. -/
def checkboxItem (line : List Char) : List Char :=
  match findSub ("[x]".data) line with
  | none => []
  | some i => checkboxContent (line.drop (i + 3))

/-- parseCheckboxes of the unnamed scripts: keep the lines containing
the lowercase checked token, extract each item, drop empty results. -/
def parseCheckboxes (content : List Char) : List (List Char) :=
  (((splitOnChar '\n' content).filter
      (fun line => containsSub ("[x]".data) line)).map checkboxItem).filter
    (fun item => decide (0 < item.length))

/-- parseCommaSeparated of the unnamed scripts. -/
def parseCommaSeparated (content : List Char) : List (List Char) :=
  ((splitOnChar ',' content).map trimJS).filter (fun item => decide (0 < item.length))

/-- The urgency extraction of the unnamed scripts: first non-blank line,
cut before the whitespace-hyphen separator, trimmed; empty when the
block is blank. -/
def parseUrgencyGen (urgencyText : List Char) : List Char :=
  match urgencyText.dropWhile isJSWhitespace with
  | [] => []
  | c :: rest => trimJS (c :: cutTail (rest.takeWhile (fun x => !(x == '\n'))))

/-- The urgency decoding of manage-cache.mjs: an exact lookup of the
whole section content in a four-entry table, defaulting to medium. -/
def urgencyFromContent (content : List Char) : List Char :=
  if content == "Low - Planning for future".data then "low".data
  else if content == "Medium - Needed within months".data then "medium".data
  else if content == "High - Needed within weeks".data then "high".data
  else if content == "Critical - Needed immediately".data then "critical".data
  else "medium".data

/-- The lowercase checked-box token tested by parseIssueForm. -/
def boxTokenLower : List Char := "- [x] ".data

/-- The uppercase checked-box token tested by parseIssueForm. -/
def boxTokenUpper : List Char := "- [X] ".data

/-- Replace the first occurrence of either checked-box token by nothing
(the replace call of parseIssueForm in manage-cache.mjs). -/
def replaceFirstBox : List Char → List Char
  | [] => []
  | c :: rest =>
    if startsList boxTokenLower (c :: rest) || startsList boxTokenUpper (c :: rest) then
      (c :: rest).drop 6
    else c :: replaceFirstBox rest

/-- The Services Requested and Resources Requested loop of parseIssueForm
in manage-cache.mjs: lines with either checked token contribute their
stripped trimmed text unless it is empty or the no-response placeholder. -/
def parseServiceItems (content : List Char) : List (List Char) :=
  (splitOnChar '\n' content).filterMap (fun line =>
    if containsSub boxTokenLower line || containsSub boxTokenUpper line then
      if decide (0 < (trimJS (replaceFirstBox line)).length)
          && !(trimJS (replaceFirstBox line) == "_No response_".data) then
        some (trimJS (replaceFirstBox line))
      else none
    else none)

/-- A tracker comment as consumed by the scripts. -/
structure RawComment where
  authorLogin : Option (List Char)
  body : Option (List Char)
  updatedAt : Option (List Char)
  createdAt : List Char

/-- A tracker issue as consumed by the scripts. -/
structure RawIssue where
  number : Nat
  body : Option (List Char)
  updatedAt : List Char

/-- Is the comment authored by the automated participant? -/
def isBotComment (c : RawComment) : Bool :=
  c.authorLogin == some ("oss-wishlist-bot".data)

/-- Does the comment body contain a section heading marker? -/
def hasFormMarker (c : RawComment) : Bool :=
  match c.body with
  | some b => containsSub ("###".data) b
  | none => false

/-- getLatestFormData of the second unnamed script.  The paginated
comment listing is modelled as an Except value: the error case is the
catch branch of the source.  Among bot comments the source takes the
last one whose body contains a heading marker, falling back to the
issue body when none qualifies, when the found body is empty, or when
listing failed. -/
def getLatestFormData (issue : RawIssue)
    (comments : Except (List Char) (List RawComment)) : List Char :=
  match comments with
  | .error _ => issue.body.getD []
  | .ok allComments =>
    let botComments := allComments.filter isBotComment
    match botComments.reverse.find? hasFormMarker with
    | some latest =>
      match latest.body with
      | some b => if b.isEmpty then issue.body.getD [] else b
      | none => issue.body.getD []
    | none => issue.body.getD []

/-- getLatestUpdateTimestamp of manage-cache.mjs: the timestamp of the
last bot comment (updated time, falling back to creation time when that
is null or empty), or the issue update time when there is no bot
comment or listing failed. -/
def getLatestUpdateTimestamp (issue : RawIssue)
    (comments : Except (List Char) (List RawComment)) : List Char :=
  match comments with
  | .error _ => issue.updatedAt
  | .ok allComments =>
    let botComments := allComments.filter isBotComment
    match botComments.getLast? with
    | some latest =>
      match latest.updatedAt with
      | some u => if u.isEmpty then latest.createdAt else u
      | none => latest.createdAt
    | none => issue.updatedAt

/-- Modelled from the spec wording of the latest-authored-comment
policy: among comments authored by the known automated participant,
select the most recent one; if that comment contains a section heading
marker it is authoritative, otherwise the original body is used. -/
def latestAuthoredCommentPolicy (issue : RawIssue)
    (allComments : List RawComment) : List Char :=
  match (allComments.filter isBotComment).getLast? with
  | some latest =>
    if hasFormMarker latest then latest.body.getD [] else issue.body.getD []
  | none => issue.body.getD []

/-- Modelled from the spec, amended: among comments authored by the
known automated participant, select the most recent one whose text
contains a section heading marker; when no bot comment contains the
marker, fall back to the original body. -/
def latestMarkedBotCommentPolicy (issue : RawIssue)
    (allComments : List RawComment) : List Char :=
  match allComments.reverse.find? (fun c => isBotComment c && hasFormMarker c) with
  | some latest => latest.body.getD []
  | none => issue.body.getD []

/-- The character class kept by the identifier normalization of
generate-cache.mjs (lowercase letters and digits). -/
def isLowerAlnum (c : Char) : Bool :=
  (decide ('a' ≤ c) && decide (c ≤ 'z')) || (decide ('0' ≤ c) && decide (c ≤ '9'))

/-- JavaScript toLowerCase (ASCII behaviour). -/
def lowerAll (l : List Char) : List Char := l.map Char.toLower

/-- Does the list end with the given suffix? -/
def endsWithList (suf l : List Char) : Bool := startsList suf.reverse l.reverse

/-- Strip one trailing git extension (the anchored replace of the
source). -/
def stripGitSuffix (l : List Char) : List Char :=
  if endsWithList (".git".data) l then l.take (l.length - 4) else l

/-- The per-character replacement of the source: characters outside the
kept class become hyphens, kept characters and hyphens survive. -/
def replChar (c : Char) : Char :=
  if isLowerAlnum c || c == '-' then c else '-'

/-- The global special-character replace of the source. -/
def replaceSpecialChars (l : List Char) : List Char := l.map replChar

/-- The global hyphen-run collapse of the source: every run of hyphens
becomes a single hyphen. -/
def collapseHyphens : List Char → List Char
  | [] => []
  | [c] => [c]
  | a :: b :: rest =>
    if a == '-' && b == '-' then collapseHyphens (b :: rest)
    else a :: collapseHyphens (b :: rest)

/-- Drop a single leading hyphen if present. -/
def dropOneLeadingHyphen (l : List Char) : List Char :=
  match l with
  | [] => []
  | c :: rest => if c == '-' then rest else c :: rest

/-- The edge-hyphen strip of the source: its anchored global replace
removes one leading hyphen and one trailing hyphen. -/
def stripEdgeHyphens (l : List Char) : List Char :=
  (dropOneLeadingHyphen ((dropOneLeadingHyphen l).reverse)).reverse

/-- The repo-name normalization chain of generateWishlistId in
generate-cache.mjs, in source order: lowercase, strip the git suffix,
replace special characters, collapse hyphen runs, strip edge hyphens. -/
def cleanRepoName (l : List Char) : List Char :=
  stripEdgeHyphens (collapseHyphens (replaceSpecialChars (stripGitSuffix (lowerAll l))))

/-- Case-insensitively consume a pattern prefix, returning the rest. -/
def dropPrefixCI : List Char → List Char → Option (List Char)
  | [], s => some s
  | _ :: _, [] => none
  | p :: ps, c :: cs => if lowerEq p c then dropPrefixCI ps cs else none

/-- Attempt of the github URL regex of generateWishlistId at one start
position: the host literal, a nonempty owner segment without slashes, a
slash, then a nonempty capture without slashes or whitespace. -/
def tryGithubAt (s : List Char) : Option (List Char) :=
  match dropPrefixCI ("github.com/".data) s with
  | none => none
  | some rest =>
    let owner := rest.takeWhile (fun c => !(c == '/'))
    if owner.isEmpty then none
    else
      match rest.drop owner.length with
      | '/' :: tail =>
        let repoName := tail.takeWhile (fun c => !(c == '/') && !(isJSWhitespace c))
        if repoName.isEmpty then none else some repoName
      | _ => none

/-- Leftmost match of the github URL regex of generateWishlistId. -/
def matchGithubUrl : List Char → Option (List Char)
  | [] => none
  | c :: rest =>
    match tryGithubAt (c :: rest) with
    | some r => some r
    | none => matchGithubUrl rest

/-- The anchored owner-slash-repo regex of generateWishlistId: the whole
string must be one slashless nonempty segment, a slash, then a nonempty
segment without slashes or whitespace; returns the second segment. -/
def slashMatchRepo (s : List Char) : Option (List Char) :=
  let left := s.takeWhile (fun c => !(c == '/'))
  if left.isEmpty then none
  else
    match s.drop left.length with
    | '/' :: rest =>
      if !rest.isEmpty && rest.all (fun c => !(c == '/') && !(isJSWhitespace c)) then some rest
      else none
    | _ => none

/-- generateWishlistId of generate-cache.mjs.  The try-catch of the
source cannot fire in this pure model, so it is omitted. -/
def generateWishlistId (repositoryUrl : List Char) (issueNumber : Nat) : List Char :=
  match matchGithubUrl repositoryUrl with
  | some repoName => cleanRepoName repoName ++ ('-' :: (Nat.repr issueNumber).data)
  | none =>
    match slashMatchRepo repositoryUrl with
    | some repoName => cleanRepoName repoName ++ ('-' :: (Nat.repr issueNumber).data)
    | none => "wishlist-".data ++ (Nat.repr issueNumber).data

/-- Modelled from the spec wording of identifier normalization: collapse
every run of characters outside the alphanumeric class to a single
hyphen. -/
def collapseNonAlnumRuns : List Char → List Char
  | [] => []
  | [c] => if isLowerAlnum c then [c] else ['-']
  | a :: b :: rest =>
    if !isLowerAlnum a && !isLowerAlnum b then collapseNonAlnumRuns (b :: rest)
    else (if isLowerAlnum a then a else '-') :: collapseNonAlnumRuns (b :: rest)

/-- Modelled from the spec wording of identifier normalization: strip
all leading and trailing hyphens. -/
def dropEdgeHyphensAll (l : List Char) : List Char :=
  ((l.dropWhile (fun c => c == '-')).reverse.dropWhile (fun c => c == '-')).reverse

/-- Modelled from the spec wording of identifier normalization:
lowercase, strip a trailing git extension, collapse runs of
non-alphanumeric characters to single hyphens, strip edge hyphens. -/
def specCleanRepoName (l : List Char) : List Char :=
  dropEdgeHyphensAll (collapseNonAlnumRuns (stripGitSuffix (lowerAll l)))

/-- The fields of a built wishlist record consumed by the aggregation of
generateCache; the remaining record fields (identifier, names, urls,
free-text fields, timestamps) do not feed the aggregate counts. -/
structure WishlistRecord where
  approved : Bool
  wishes : List (List Char)
  technologies : List (List Char)

/-- Insertion-order deduplication (the Set construction of the source). -/
def dedupKeepFirst (l : List (List Char)) : List (List Char) :=
  l.foldl (fun acc t => if acc.contains t then acc else acc ++ [t]) []

/-- Code-unit lexicographic comparison (the default sort order of
JavaScript strings). -/
def lexLt : List Char → List Char → Bool
  | [], [] => false
  | [], _ :: _ => true
  | _ :: _, [] => false
  | x :: xs, y :: ys => decide (x < y) || (x == y && lexLt xs ys)

/-- Insertion step of the sort used for the statistics key order. -/
def insertLex (x : List Char) : List (List Char) → List (List Char)
  | [] => [x]
  | y :: ys => if lexLt y x then y :: insertLex x ys else x :: y :: ys

/-- The sort call of the source on deduplicated keys. -/
def sortLex (l : List (List Char)) : List (List Char) :=
  l.foldr insertLex []

/-- The aggregate cache document built by generateCache (version string
and generation timestamp omitted: the former is a constant, the latter
is the ambient clock). -/
structure CacheData where
  totalWishlists : Nat
  approvedCount : Nat
  pendingCount : Nat
  ecosystemStats : List (List Char × Nat)
  serviceStats : List (List Char × Nat)
  wishlists : List WishlistRecord

/-- The aggregation of generateCache in the unnamed scripts: counts,
per-technology and per-service statistics over the built records. -/
def generateCacheData (wishlists : List WishlistRecord) : CacheData :=
  let approvedCount := (wishlists.filter (fun w => w.approved)).length
  let allTechnologies := sortLex (dedupKeepFirst ((wishlists.map (fun w => w.technologies)).flatten))
  let allServices := sortLex (dedupKeepFirst ((wishlists.map (fun w => w.wishes)).flatten))
  { totalWishlists := wishlists.length
    approvedCount := approvedCount
    pendingCount := wishlists.length - approvedCount
    ecosystemStats := allTechnologies.map (fun tech =>
      (tech, (wishlists.filter (fun w => w.technologies.contains tech)).length))
    serviceStats := allServices.map (fun s =>
      (s, (wishlists.filter (fun w => w.wishes.contains s)).length))
    wishlists := wishlists }

/-- A Chain-based statement that a character list never has two adjacent
hyphens; the output of the run-collapsing normalization has this shape. -/
def NoAdjacentHyphens (l : List Char) : Prop :=
  l.Chain' (fun a b => ¬(a = '-' ∧ b = '-'))

theorem startsWithCI_append (p q s : List Char) (h : startsWithCI (p ++ q) s = true) :
    startsWithCI p s = true := by
  induction p generalizing s with
  | nil => rfl
  | cons a ps ih =>
    cases s with
    | nil => simp [startsWithCI] at h
    | cons c cs =>
      simp only [List.cons_append, startsWithCI, Bool.and_eq_true] at h ⊢
      exact ⟨h.1, ih cs h.2⟩

theorem findCI_none_starts (p s : List Char) (h : findCI p s = none) (i : Nat) :
    startsWithCI p (s.drop i) = false := by
  induction s generalizing i with
  | nil =>
    simp only [findCI] at h
    rw [List.drop_nil]
    cases hs : startsWithCI p [] with
    | true => simp [hs] at h
    | false => rfl
  | cons c cs ih =>
    simp only [findCI] at h
    cases hs : startsWithCI p (c :: cs) with
    | true => simp [hs] at h
    | false =>
      simp only [hs, if_false, Bool.false_eq_true, Option.map_eq_none'] at h
      cases i with
      | zero => rw [List.drop_zero]; exact hs
      | succ j => rw [List.drop_succ_cons]; exact ih h j

theorem findCI_some_starts (p s : List Char) (i : Nat) (h : findCI p s = some i) :
    startsWithCI p (s.drop i) = true := by
  induction s generalizing i with
  | nil =>
    simp only [findCI] at h
    cases hs : startsWithCI p [] with
    | true =>
      simp only [hs, if_true] at h
      obtain rfl : (0 : Nat) = i := Option.some.inj h
      simpa using hs
    | false => simp [hs] at h
  | cons c cs ih =>
    simp only [findCI] at h
    cases hs : startsWithCI p (c :: cs) with
    | true =>
      simp only [hs, if_true] at h
      obtain rfl : (0 : Nat) = i := Option.some.inj h
      simpa using hs
    | false =>
      simp only [hs, if_false, Bool.false_eq_true] at h
      rcases Option.map_eq_some'.mp h with ⟨j, hj, rfl⟩
      rw [List.drop_succ_cons]
      exact ih j hj

theorem findCI_some_le (p s : List Char) (i : Nat) (h : findCI p s = some i) :
    i ≤ s.length := by
  induction s generalizing i with
  | nil =>
    simp only [findCI] at h
    cases hs : startsWithCI p [] with
    | true =>
      simp only [hs, if_true] at h
      obtain rfl : (0 : Nat) = i := Option.some.inj h
      simp
    | false => simp [hs] at h
  | cons c cs ih =>
    simp only [findCI] at h
    cases hs : startsWithCI p (c :: cs) with
    | true =>
      simp only [hs, if_true] at h
      obtain rfl : (0 : Nat) = i := Option.some.inj h
      simp
    | false =>
      simp only [hs, if_false, Bool.false_eq_true] at h
      rcases Option.map_eq_some'.mp h with ⟨j, hj, rfl⟩
      simpa [List.length_cons] using Nat.succ_le_succ (ih j hj)

theorem startsWithCI_length_le (p s : List Char) (h : startsWithCI p s = true) :
    p.length ≤ s.length := by
  induction p generalizing s with
  | nil => simp
  | cons a ps ih =>
    cases s with
    | nil => simp [startsWithCI] at h
    | cons c cs =>
      simp only [startsWithCI, Bool.and_eq_true] at h
      simpa [List.length_cons] using Nat.succ_le_succ (ih cs h.2)

theorem mem_occurrencesCI (p s : List Char) (i : Nat)
    (h : startsWithCI p (s.drop i) = true) (hle : i ≤ s.length) :
    i ∈ occurrencesCI p s := by
  induction s generalizing i with
  | nil =>
    obtain rfl : i = 0 := Nat.le_zero.mp hle
    rw [List.drop_nil] at h
    simp [occurrencesCI, h]
  | cons c cs ih =>
    cases i with
    | zero =>
      rw [List.drop_zero] at h
      simp [occurrencesCI, h]
    | succ j =>
      rw [List.drop_succ_cons] at h
      have hj : j ≤ cs.length := by
        simpa [List.length_cons] using hle
      have hmem := ih j h hj
      simp only [occurrencesCI, List.mem_append, List.mem_map]
      exact Or.inr ⟨j, hmem, rfl⟩

theorem headingPattern_eq (title : List Char) :
    headingPattern title = "###".data ++ (' ' :: (title ++ ['\n'])) := by
  show (['#', '#', '#', ' '] ++ title) ++ ['\n']
      = ['#', '#', '#'] ++ (' ' :: (title ++ ['\n']))
  simp

/-- Claim C5: for every markdown text containing no heading marker and
for every section title, extractSection returns the empty string. -/
theorem extractSection_no_marker_empty (body title : List Char)
    (h : hasHeadingMarker body = false) : extractSection body title = [] := by
  have hnone : findCI ("###".data) body = none := by
    rcases hf : findCI ("###".data) body with _ | i
    · rfl
    · rw [hasHeadingMarker, hf] at h
      simp at h
  have hpat : findCI (headingPattern title) body = none := by
    rcases hp : findCI (headingPattern title) body with _ | i
    · rfl
    exfalso
    have h1 := findCI_some_starts _ _ _ hp
    rw [headingPattern_eq] at h1
    have h2 := startsWithCI_append _ _ _ h1
    have h3 := findCI_none_starts _ _ hnone i
    rw [h2] at h3
    exact Bool.true_eq_false.mp h3
  simp [extractSection, hpat]

/-- Witness for claim C5 at a concrete marker-free text and title. -/
theorem extractSection_no_marker_empty_witness :
    hasHeadingMarker ("hello world".data) = false ∧
      extractSection ("hello world".data) ("Project Name".data) = [] :=
  ⟨by decide, extractSection_no_marker_empty _ _ (by decide)⟩

/-- Claim C10: extractSection only recognizes a heading that is followed
by a newline; when the sole heading-marker occurrence of the text is the
final heading line with no trailing newline, the section is not found
and the empty string is returned. -/
theorem extractSection_requires_newline (pre title : List Char)
    (h : occurrencesCI ("###".data) (pre ++ ("### ".data ++ title)) = [pre.length]) :
    extractSection (pre ++ ("### ".data ++ title)) title = [] := by
  have hpat : findCI (headingPattern title) (pre ++ ("### ".data ++ title)) = none := by
    rcases hp : findCI (headingPattern title) (pre ++ ("### ".data ++ title)) with _ | i
    · rfl
    exfalso
    have h1 := findCI_some_starts _ _ _ hp
    have hle := findCI_some_le _ _ _ hp
    have h2 : startsWithCI ("###".data) ((pre ++ ("### ".data ++ title)).drop i) = true := by
      have h1b := h1
      rw [headingPattern_eq] at h1b
      exact startsWithCI_append _ _ _ h1b
    have hmem := mem_occurrencesCI _ _ _ h2 hle
    rw [h, List.mem_singleton] at hmem
    subst hmem
    rw [List.drop_left] at h1
    have h3 := startsWithCI_length_le _ _ h1
    simp only [headingPattern, List.length_append, List.length_cons, List.length_nil] at h3
    omega
  unfold extractSection
  rw [hpat]

/-- Witness for claim C10: a text ending in the heading line with no
trailing newline, whose only heading marker starts that line. -/
theorem extractSection_requires_newline_witness :
    occurrencesCI ("###".data) ("intro\n".data ++ ("### ".data ++ "Project Name".data))
        = ["intro\n".data.length] ∧
      extractSection ("intro\n".data ++ ("### ".data ++ "Project Name".data))
          ("Project Name".data) = [] :=
  ⟨by decide, extractSection_requires_newline _ _ (by decide)⟩

theorem filter_map_filter {α β : Type} (p : α → Bool) (f : α → β) (q : β → Bool)
    (l : List α) :
    ((l.filter p).map f).filter q
      = l.filterMap (fun a => if p a && q (f a) then some (f a) else none) := by
  induction l with
  | nil => rfl
  | cons a t ih =>
    cases hp : p a with
    | false => simp [List.filter_cons, List.filterMap_cons, hp, ih]
    | true =>
      cases hq : q (f a) with
      | false => simp [List.filter_cons, List.filterMap_cons, hp, hq, ih]
      | true => simp [List.filter_cons, List.filterMap_cons, hp, hq, ih]

/-- Claim C1 (amended): parseCheckboxes recognizes only the lowercase
checked token; each line of the block contributes independently and in
source order, exactly when it contains the lowercase token and its
extracted trimmed content is nonempty.  Lines carrying only a different
case variant of the token do not contribute. -/
theorem parseCheckboxes_lowercase_per_line (content : List Char) :
    parseCheckboxes content
      = (splitOnChar '\n' content).filterMap (fun line =>
          if containsSub ("[x]".data) line && decide (0 < (checkboxItem line).length)
          then some (checkboxItem line) else none) :=
  filter_map_filter _ _ _ _

/-- Counterexample to claim C1 as stated: a line containing the checked
token in its uppercase variant contributes nothing to parseCheckboxes,
although the claim requires every case variant to contribute; the same
line with the lowercase token does contribute. -/
theorem parseCheckboxes_upper_token_skipped :
    containsSub ("[X]".data) ("- [X] Foo".data) = true ∧
      parseCheckboxes ("- [X] Foo".data) = [] ∧
      parseCheckboxes ("- [x] Foo".data) = ["Foo".data] := by
  decide

/-- Claim C8: the comma-list decoder splits on commas, trims each piece
and drops empty pieces, without deduplicating or lowercasing; the first
conjunct is the example of the claim, the second keeps duplicates and
letter case intact. -/
theorem parseCommaSeparated_behaviour :
    parseCommaSeparated ("a, b,,  c".data) = ["a".data, "b".data, "c".data] ∧
      parseCommaSeparated ("B, b, B".data) = ["B".data, "b".data, "B".data] := by
  decide

/-- Claim C9 (amended): parseCheckboxes never emits the empty string,
and the services loop of parseIssueForm in manage-cache.mjs emits
neither the empty string nor the no-response placeholder; parseCheckboxes
itself does not filter the placeholder. -/
theorem checkbox_outputs_no_empty_or_placeholder :
    (∀ content, (parseCheckboxes content).all (fun item => !item.isEmpty) = true) ∧
      (∀ content, (parseServiceItems content).all
          (fun s => !s.isEmpty && !(s == "_No response_".data)) = true) := by
  constructor
  · intro content
    rw [List.all_eq_true]
    intro x hx
    have hx2 := (List.mem_filter.mp hx).2
    have hlen : 0 < x.length := of_decide_eq_true hx2
    cases x with
    | nil => simp at hlen
    | cons a t => rfl
  · intro content
    rw [List.all_eq_true]
    intro s hs
    rcases List.mem_filterMap.mp hs with ⟨line, _, hf⟩
    split at hf
    · split at hf
      next hcond =>
        obtain rfl : trimJS (replaceFirstBox line) = s := Option.some.inj hf
        rw [Bool.and_eq_true] at hcond
        rw [Bool.and_eq_true]
        refine ⟨?_, hcond.2⟩
        have hlen : 0 < (trimJS (replaceFirstBox line)).length := of_decide_eq_true hcond.1
        cases htl : trimJS (replaceFirstBox line) with
        | nil => rw [htl] at hlen; simp at hlen
        | cons a t => rfl
      next => cases hf
    · cases hf

/-- Counterexample to claim C9 as stated: a line that contains the
lowercase checked token followed by the no-response placeholder makes
parseCheckboxes emit the placeholder as an item. -/
theorem parseCheckboxes_placeholder_escapes :
    parseCheckboxes ("- [x] _No response_".data) = ["_No response_".data] := by
  decide

/-- Claim C4: when the comment-listing collaborator fails, the resolver
of the second unnamed script returns the original issue body unchanged,
and the timestamp resolver of manage-cache.mjs returns the issue update
time; in the embedding both consume the error instead of propagating
it, so the run is not aborted. -/
theorem resolver_error_fallback :
    (∀ (issue : RawIssue) (e : List Char),
        getLatestFormData issue (.error e) = issue.body.getD []) ∧
      (∀ (issue : RawIssue) (e : List Char),
          getLatestUpdateTimestamp issue (.error e) = issue.updatedAt) :=
  ⟨fun _ _ => rfl, fun _ _ => rfl⟩

theorem filter_reverse_comm {α : Type} (p : α → Bool) (l : List α) :
    (l.filter p).reverse = l.reverse.filter p := by
  induction l with
  | nil => rfl
  | cons a t ih =>
    rw [List.filter_cons, List.reverse_cons, List.filter_append]
    cases hp : p a with
    | false =>
      rw [if_neg (by simp [hp])]
      rw [ih]
      have hone : List.filter p [a] = [] := by simp [List.filter_cons, hp]
      rw [hone, List.append_nil]
    | true =>
      rw [if_pos (by simp [hp])]
      rw [List.reverse_cons, ih]
      have hone : List.filter p [a] = [a] := by simp [List.filter_cons, hp]
      rw [hone]

theorem find?_filter_comm {α : Type} (p q : α → Bool) (l : List α) :
    (l.filter p).find? q = l.find? (fun a => p a && q a) := by
  induction l with
  | nil => rfl
  | cons a t ih =>
    cases hp : p a with
    | false => simp [List.filter_cons, List.find?_cons, hp, ih]
    | true =>
      cases hq : q a with
      | false => simp [List.filter_cons, List.find?_cons, hp, hq, ih]
      | true => simp [List.filter_cons, List.find?_cons, hp, hq]

/-- Claim C3 (amended): among the bot comments the resolver returns the
most recent one whose text contains a section heading marker, falling
back to the original body when no bot comment carries the marker.  The
statement equates the source function with the amended policy. -/
theorem getLatestFormData_eq_latestMarked (issue : RawIssue)
    (comments : List RawComment) :
    getLatestFormData issue (.ok comments)
      = latestMarkedBotCommentPolicy issue comments := by
  simp only [getLatestFormData, latestMarkedBotCommentPolicy]
  rw [filter_reverse_comm, find?_filter_comm]
  rcases hfind : comments.reverse.find? (fun c => isBotComment c && hasFormMarker c)
    with _ | latest
  · rfl
  · have hpred := List.find?_some hfind
    rw [Bool.and_eq_true] at hpred
    have hmark := hpred.2
    rw [hasFormMarker] at hmark
    rcases hbody : latest.body with _ | b
    · rw [hbody] at hmark
      cases hmark
    · rw [hbody] at hmark
      have hne : b.isEmpty = false := by
        cases b with
        | nil => simp [containsSub, List.isEmpty] at hmark
        | cons x xs => rfl
      simp [hbody, hne]

/-- Counterexample to claim C3 as stated: with two bot comments where
only the older one contains a heading marker, the source returns the
older marked comment, while the policy stated by the claim falls back
to the original body because the most recent bot comment has no marker. -/
theorem resolver_policy_divergence :
    getLatestFormData ⟨1, some ("ORIG".data), "t0".data⟩
        (.ok [⟨some ("oss-wishlist-bot".data), some ("### A".data), none, "t1".data⟩,
              ⟨some ("oss-wishlist-bot".data), some ("no marker".data), none, "t2".data⟩])
      = "### A".data ∧
      latestAuthoredCommentPolicy ⟨1, some ("ORIG".data), "t0".data⟩
          [⟨some ("oss-wishlist-bot".data), some ("### A".data), none, "t1".data⟩,
           ⟨some ("oss-wishlist-bot".data), some ("no marker".data), none, "t2".data⟩]
        = "ORIG".data ∧
      ("### A".data ≠ "ORIG".data) := by
  decide

/-- Claim C2 (amended): the urgency decoding of manage-cache.mjs is an
exact table lookup over the four full option strings, so its output is
always a member of the closed set and every other content maps to the
medium default; the regex variant of the unnamed scripts instead keeps
the first line up to the hyphen separator without lowercasing. -/
theorem urgency_decoder_behaviour :
    (∀ content, urgencyFromContent content = "low".data ∨
        urgencyFromContent content = "medium".data ∨
        urgencyFromContent content = "high".data ∨
        urgencyFromContent content = "critical".data) ∧
      urgencyFromContent ("High - Needed within weeks".data) = "high".data ∧
      parseUrgencyGen ("High - Needed within weeks".data) = "High".data := by
  refine ⟨?_, by decide, by decide⟩
  intro content
  rw [urgencyFromContent]
  split_ifs <;> simp

/-- Counterexample to claim C2 as stated: the regex variant returns the
unvalidated first-line value with its original case, where the claim
requires the lowercased validated value or the medium default; and the
manage-cache table maps a lowercase member of the closed set to the
default instead of keeping it. -/
theorem urgency_decoder_claim_fails :
    parseUrgencyGen ("Elevated - soon".data) = "Elevated".data ∧
      urgencyFromContent ("high".data) = "medium".data := by
  decide

theorem replChar_of_alnum (c : Char) (h : isLowerAlnum c = true) : replChar c = c := by
  simp [replChar, h]

theorem replChar_of_not_alnum (c : Char) (h : isLowerAlnum c = false) :
    replChar c = '-' := by
  by_cases hc : c = '-'
  · subst hc; decide
  · simp [replChar, h, beq_eq_false_iff_ne.mpr hc]

theorem replChar_beq_dash (c : Char) : (replChar c == '-') = !isLowerAlnum c := by
  by_cases hc : c = '-'
  · subst hc; decide
  · have hcb : (c == '-') = false := beq_eq_false_iff_ne.mpr hc
    cases ha : isLowerAlnum c with
    | true => simp [replChar, ha, hcb]
    | false => simp [replChar, ha, hcb]

theorem collapse_replace_eq (l : List Char) :
    collapseHyphens (replaceSpecialChars l) = collapseNonAlnumRuns l := by
  induction l with
  | nil => rfl
  | cons a t ih =>
    cases t with
    | nil =>
      cases ha : isLowerAlnum a with
      | true =>
        simp [replaceSpecialChars, collapseHyphens, collapseNonAlnumRuns, ha,
          replChar_of_alnum a ha]
      | false =>
        simp [replaceSpecialChars, collapseHyphens, collapseNonAlnumRuns, ha,
          replChar_of_not_alnum a ha]
    | cons b rest =>
      have key : collapseHyphens (replaceSpecialChars (b :: rest))
          = collapseNonAlnumRuns (b :: rest) := ih
      simp only [replaceSpecialChars, List.map_cons] at key ⊢
      simp only [collapseHyphens, collapseNonAlnumRuns, replChar_beq_dash]
      cases ha : isLowerAlnum a with
      | true =>
        simp only [Bool.not_true, Bool.false_and, Bool.false_eq_true, if_false,
          Bool.and_eq_true]
        rw [replChar_of_alnum a ha, key]
        simp
      | false =>
        cases hb : isLowerAlnum b with
        | true =>
          simp only [Bool.not_true, Bool.not_false, Bool.and_false, Bool.true_and,
            Bool.false_eq_true, if_false]
          rw [replChar_of_not_alnum a ha, key]
        | false =>
          simp only [Bool.not_false, Bool.and_self, Bool.true_and, if_true]
          rw [key]

theorem alnum_ne_dash (c : Char) (h : isLowerAlnum c = true) : c ≠ '-' := by
  intro hc
  subst hc
  exact absurd h (by decide)

theorem collapseNonAlnumRuns_head_alnum (b : Char) (t : List Char)
    (h : isLowerAlnum b = true) :
    ∃ t2, collapseNonAlnumRuns (b :: t) = b :: t2 := by
  cases t with
  | nil => exact ⟨[], by simp [collapseNonAlnumRuns, h]⟩
  | cons c rest =>
    refine ⟨collapseNonAlnumRuns (c :: rest), ?_⟩
    simp [collapseNonAlnumRuns, h]

theorem noAdj_collapse (l : List Char) :
    NoAdjacentHyphens (collapseNonAlnumRuns l) := by
  induction l with
  | nil => simp [collapseNonAlnumRuns, NoAdjacentHyphens]
  | cons a t ih =>
    cases t with
    | nil =>
      cases ha : isLowerAlnum a <;>
        simp [collapseNonAlnumRuns, ha, NoAdjacentHyphens]
    | cons b rest =>
      simp only [collapseNonAlnumRuns]
      split
      · exact ih
      · rename_i hcond
        rw [NoAdjacentHyphens, List.chain'_cons']
        refine ⟨?_, ih⟩
        intro y hy hcontra
        obtain ⟨h1, h2⟩ := hcontra
        by_cases ha : isLowerAlnum a = true
        · rw [if_pos ha] at h1
          exact alnum_ne_dash a ha h1
        · have ha2 : isLowerAlnum a = false := by
            cases hav : isLowerAlnum a
            · rfl
            · exact absurd hav ha
          have hb : isLowerAlnum b = true := by
            cases hbv : isLowerAlnum b
            · exact absurd (by simp [ha2, hbv]) hcond
            · rfl
          obtain ⟨t2, ht2⟩ := collapseNonAlnumRuns_head_alnum b rest hb
          rw [ht2] at hy
          simp only [List.head?_cons, Option.mem_def, Option.some.injEq] at hy
          subst hy
          exact alnum_ne_dash b hb h2

theorem noAdj_dropWhile (p : Char → Bool) (l : List Char)
    (h : NoAdjacentHyphens l) : NoAdjacentHyphens (l.dropWhile p) := by
  induction l with
  | nil => simpa using h
  | cons a t ih =>
    rw [List.dropWhile_cons]
    split
    · exact ih h.tail
    · exact h

theorem noAdj_reverse (l : List Char) (h : NoAdjacentHyphens l) :
    NoAdjacentHyphens l.reverse := by
  rw [NoAdjacentHyphens, List.chain'_reverse]
  exact h.imp (fun a b hab hba => hab ⟨hba.2, hba.1⟩)

theorem dropOne_eq_dropWhile (l : List Char) (h : NoAdjacentHyphens l) :
    dropOneLeadingHyphen l = l.dropWhile (fun c => c == '-') := by
  cases l with
  | nil => rfl
  | cons a t =>
    simp only [dropOneLeadingHyphen]
    rw [List.dropWhile_cons]
    cases hab : (a == '-') with
    | false => simp [hab]
    | true =>
      simp only [hab, if_true]
      obtain rfl : a = '-' := eq_of_beq hab
      cases t with
      | nil => simp [List.dropWhile]
      | cons b ts =>
        have hb : b ≠ '-' := by
          intro hbe
          subst hbe
          exact (List.chain'_cons.mp h).1 ⟨rfl, rfl⟩
        rw [List.dropWhile_cons, if_neg (by simp [beq_eq_false_iff_ne.mpr hb])]

theorem stripEdge_eq_dropAll (l : List Char) (h : NoAdjacentHyphens l) :
    stripEdgeHyphens l = dropEdgeHyphensAll l := by
  rw [stripEdgeHyphens, dropEdgeHyphensAll]
  rw [dropOne_eq_dropWhile l h]
  have h1 : NoAdjacentHyphens (l.dropWhile (fun c => c == '-')) :=
    noAdj_dropWhile _ _ h
  have h2 := noAdj_reverse _ h1
  rw [dropOne_eq_dropWhile _ h2]

/-- Claim C6: the identifier normalization of generateWishlistId equals
the spec reading of it (lowercase, strip the trailing git extension,
collapse runs of non-alphanumeric characters to single hyphens, strip
edge hyphens), and on the repository URL of the claim with item number
42 the derived identifier is my-repo-42. -/
theorem generateWishlistId_normalization :
    (∀ repoName, cleanRepoName repoName = specCleanRepoName repoName) ∧
      generateWishlistId ("https://github.com/Acme/My.Repo.git".data) 42
        = "my-repo-42".data := by
  constructor
  · intro r
    simp only [cleanRepoName, specCleanRepoName]
    rw [collapse_replace_eq]
    exact stripEdge_eq_dropAll _ (noAdj_collapse _)
  · decide

theorem length_filter_add_length_filter_not {α : Type} (p : α → Bool) (l : List α) :
    (l.filter p).length + (l.filter (fun a => !p a)).length = l.length := by
  induction l with
  | nil => rfl
  | cons a t ih =>
    cases hp : p a <;> simp [List.filter_cons, hp] <;> omega

/-- Claim C7: for every list of built records the aggregate counts are
consistent: the approved count is the number of approved records, the
pending count is the number of non-approved records, and the two add up
to the total. -/
theorem aggregator_counts_consistent (wishlists : List WishlistRecord) :
    (generateCacheData wishlists).approvedCount + (generateCacheData wishlists).pendingCount
        = (generateCacheData wishlists).totalWishlists ∧
      (generateCacheData wishlists).totalWishlists = wishlists.length ∧
      (generateCacheData wishlists).approvedCount
          = (wishlists.filter (fun w => w.approved)).length ∧
      (generateCacheData wishlists).pendingCount
          = (wishlists.filter (fun w => !w.approved)).length := by
  have hle : (wishlists.filter (fun w => w.approved)).length ≤ wishlists.length :=
    List.length_filter_le _ _
  have hsum := length_filter_add_length_filter_not (fun w => w.approved) wishlists
  simp only [generateCacheData]
  refine ⟨?_, trivial, trivial, ?_⟩ <;> omega
